import Mathlib

/-!
Shallow embedding of the localreco aggregation pipeline
(`src/backend/src/services/sentimentService.ts` together with the services
concatenated in that file: restaurant extraction, cache/rate-limit and the
search orchestrator).  JavaScript strings are modelled as lists of
characters (`Str`); string methods are modelled on ASCII, which is all the
source manipulates.  Fallible external dependencies are modelled with
`Except`/`Option`; JavaScript `undefined` is `Option.none`.
-/

/-- JavaScript strings, modelled as lists of characters. -/
abbrev Str := List Char

/-- ASCII model of `String.prototype.toLowerCase` on one character. -/
def lowChar (c : Char) : Char :=
  if 'A' ≤ c ∧ c ≤ 'Z' then Char.ofNat (c.toNat + 32) else c

/-- `s.toLowerCase()`. -/
def lowerStr (s : Str) : Str := s.map lowChar

/-- The regex class `\s`, restricted to ASCII whitespace. -/
def isWsChar (c : Char) : Bool :=
  c = ' ' ∨ c = '\t' ∨ c = '\n' ∨ c = '\r' ∨ c = '\x0b' ∨ c = '\x0c'

/-- The regex class `[A-Z]` (without the `i` flag). -/
def isUpperChar (c : Char) : Bool := 'A' ≤ c ∧ c ≤ 'Z'

/-- The regex class `[a-z]` (without the `i` flag). -/
def isLowerChar (c : Char) : Bool := 'a' ≤ c ∧ c ≤ 'z'

/-- The regex classes `[A-Z]`/`[a-z]` under the `i` flag: any ASCII letter. -/
def isLetterChar (c : Char) : Bool := isUpperChar c ∨ isLowerChar c

/-- The regex class `\w` (word character), as used by the `\b` boundary. -/
def isWordChar (c : Char) : Bool :=
  isLetterChar c ∨ ('0' ≤ c ∧ c ≤ '9') ∨ c = '_'

/-- `s.trim()`. -/
def jsTrim (s : Str) : Str :=
  ((s.dropWhile isWsChar).reverse.dropWhile isWsChar).reverse

/-- Case-insensitive "the pattern `pat` matches at the start of `l`"
(the `i` flag canonicalizes both sides, ASCII model). -/
def ciStarts (pat l : Str) : Bool :=
  (l.take pat.length).map lowChar = pat.map lowChar

/-- Exact (case-sensitive) prefix test, for `String.prototype.indexOf`. -/
def startsWithSeq (pat l : Str) : Bool := l.take pat.length = pat

/-- `text.indexOf(pat)`, as `none` when the source would return `-1`. -/
def idxOfSeq : Str → Str → Option Nat
  | [], pat => if pat.isEmpty then some 0 else none
  | c :: cs, pat =>
    if startsWithSeq pat (c :: cs) then some 0
    else (idxOfSeq cs pat).map (· + 1)

/-- `text.includes(pat)`. -/
def containsSeq (l pat : Str) : Bool := (idxOfSeq l pat).isSome

/-- Sentiment labels. -/
inductive Label
  | positive
  | neutral
  | negative
deriving DecidableEq, Repr

/-- `SentimentResult` from `sentimentService.ts`.  JavaScript numbers are
modelled as rationals; the claims under study only exercise exact decimal
values, where binary doubles and rationals agree on order comparisons. -/
structure SentimentResult where
  score : ℚ
  comparative : ℚ
  label : Label
deriving DecidableEq, Repr

/-- The label classification used (identically) at both derivation sites of
the source: `comparative > 0.1` → positive, `comparative < -0.1` → negative,
otherwise neutral. -/
def sentimentLabel (comparative : ℚ) : Label :=
  if comparative > 1/10 then Label.positive
  else if comparative < -(1/10) then Label.negative
  else Label.neutral

/-- `analyzeSentiment` (`sentimentService.ts` lines 26-50).  The external
`sentiment` npm scorer is a parameter returning `(score, comparative)`;
`none` models the scorer throwing, which the source catches, returning the
neutral zero result. -/
def analyzeSentiment (scorer : Str → Option (ℚ × ℚ)) (text : Str) : SentimentResult :=
  match scorer text with
  | some (s, c) => ⟨s, c, sentimentLabel c⟩
  | none => ⟨0, 0, Label.neutral⟩

/-- `Math.round` on rationals (round half toward positive infinity). -/
def jsRound (x : ℚ) : ℚ := (⌊x + 1/2⌋ : ℤ)

/-- `Math.round(x * 100) / 100`. -/
def round2 (x : ℚ) : ℚ := jsRound (x * 100) / 100

/-- `Math.round(x * 10000) / 10000`. -/
def round4 (x : ℚ) : ℚ := jsRound (x * 10000) / 10000

/-- The combiner's `allText` local:
`[postText, ...comments].filter(text => text && text.length > 0)` — for a
string, truthiness plus positive length is exactly non-emptiness. -/
def combinedTexts (postText : Str) (comments : List Str) : List Str :=
  (postText :: comments).filter (fun t => ¬t.isEmpty)

/-- The combiner's `avgScore` local (unrounded). -/
def combinedScore (scorer : Str → Option (ℚ × ℚ)) (postText : Str)
    (comments : List Str) : ℚ :=
  let sentiments := (combinedTexts postText comments).map (analyzeSentiment scorer)
  (sentiments.map (·.score)).sum / (sentiments.length : ℚ)

/-- The combiner's `avgComparative` local (unrounded). -/
def combinedComparative (scorer : Str → Option (ℚ × ℚ)) (postText : Str)
    (comments : List Str) : ℚ :=
  let sentiments := (combinedTexts postText comments).map (analyzeSentiment scorer)
  (sentiments.map (·.comparative)).sum / (sentiments.length : ℚ)

/-- `analyzeRestaurantSentiment` (the sentiment combiner, lines 425-457).
The label is classified from the unrounded average comparative, as in the
source. -/
def analyzeRestaurantSentiment (scorer : Str → Option (ℚ × ℚ))
    (postText : Str) (comments : List Str) : SentimentResult :=
  if (combinedTexts postText comments).length = 0 then ⟨0, 0, Label.neutral⟩
  else
    ⟨round2 (combinedScore scorer postText comments),
     round4 (combinedComparative scorer postText comments),
     sentimentLabel (combinedComparative scorer postText comments)⟩

/-- Source kinds for extracted mentions. -/
inductive SourceKind
  | post_title
  | post_body
  | comment
deriving DecidableEq, Repr

/-- `RestaurantMention` from `restaurantExtractionService`. -/
structure Mention where
  name : Str
  source : SourceKind
  sourceId : Str
  text : Str
  mentions : Nat
deriving DecidableEq, Repr

/-- The deduplication map shared by the three extraction passes, modelled as
an insertion-ordered association list keyed by the lower-cased name (a
JavaScript `Map` preserves insertion order). -/
abbrev MMap := List (Str × Mention)

/-- `Map.prototype.get`. -/
def mlookup (m : MMap) (k : Str) : Option Mention :=
  match m with
  | [] => none
  | p :: ps => if p.1 = k then some p.2 else mlookup ps k

/-- `existing.mentions += 1` on the entry stored under `k`. -/
def mbump (m : MMap) (k : Str) : MMap :=
  m.map (fun p => if p.1 = k then (p.1, { p.2 with mentions := p.2.mentions + 1 }) else p)

/-- `text.substring(Math.max(0, idx - 50), Math.min(text.length, idx + 50))`
(`Nat` subtraction already truncates at zero, matching `Math.max(0, ·)`). -/
def snippetAt (text : Str) (idx : Nat) : Str :=
  (text.drop (idx - 50)).take (min text.length (idx + 50) - (idx - 50))

/-- The fixed establishment-keyword vocabulary (`restaurantKeywords`,
in source order, including the duplicated `cafe`). -/
def restaurantKeywords : List Str :=
  ["restaurant".data, "cafe".data, "cafe".data, "diner".data, "bistro".data,
   "pizzeria".data, "sushi".data, "burger".data, "steakhouse".data,
   "kitchen".data, "grill".data, "bar and grill".data, "bbq".data,
   "barbecue".data, "taco".data, "noodles".data, "ramen".data, "pho".data,
   "bakery".data, "coffee".data, "burger joint".data, "food truck".data]

/-- Splits `l` at the first occurrence of `q`: `some (before, after)` with
`l = before ++ q :: after` and `q ∉ before`, or `none` when `q ∉ l`.  This is
how the greedy `[^"]+"` (resp. `[^']+'`) tail of the quoted pattern matches:
the capture runs to the next closing quote. -/
def splitOnFirst (q : Char) : Str → Option (Str × Str)
  | [] => none
  | c :: cs =>
    if c = q then some ([], cs)
    else (splitOnFirst q cs).map (fun p => (c :: p.1, p.2))

/-- The exec loop of `quotedPattern = /"([^"]+)"|'([^']+)'/g`: left-to-right
scan; at a quote character the capture is the (non-empty) span up to the next
matching quote, and scanning resumes after the closing quote; otherwise the
scan advances one character.  `fuel` only bounds the recursion; every call
site supplies more fuel than characters.  Returns (capture, match index). -/
def qScanAux (fuel : Nat) (l : Str) (i : Nat) : List (Str × Nat) :=
  match fuel with
  | 0 => []
  | fuel + 1 =>
    match l with
    | [] => []
    | c :: cs =>
      if c = '"' then
        match splitOnFirst '"' cs with
        | some (before, after) =>
          if before.isEmpty then qScanAux fuel cs (i + 1)
          else (before, i) :: qScanAux fuel after (i + before.length + 2)
        | none => qScanAux fuel cs (i + 1)
      else if c = '\'' then
        match splitOnFirst '\'' cs with
        | some (before, after) =>
          if before.isEmpty then qScanAux fuel cs (i + 1)
          else (before, i) :: qScanAux fuel after (i + before.length + 2)
        | none => qScanAux fuel cs (i + 1)
      else qScanAux fuel cs (i + 1)

/-- Quoted-pass candidates of a text (pass 1). -/
def quotedCandidates (text : Str) : List (Str × Nat) :=
  qScanAux (text.length + 1) text 0

/-- Greedy `(?:\s+[A-Z][a-z]+)*` under the `i` flag (so each word is any
letter followed by one or more letters), the whitespace being captured too.
Returns (captured tail, rest).  A shorter-than-maximal letter run can never
help later tokens (which cannot match a letter), so greedy runs need no
backtracking. -/
def nameMore (fuel : Nat) (l : Str) : Str × Str :=
  match fuel with
  | 0 => ([], l)
  | fuel + 1 =>
    if (l.takeWhile isWsChar).isEmpty then ([], l)
    else
      match l.drop (l.takeWhile isWsChar).length with
      | c :: cs =>
        if isLetterChar c then
          if (cs.takeWhile isLetterChar).isEmpty then ([], l)
          else
            (l.takeWhile isWsChar ++ c :: cs.takeWhile isLetterChar
               ++ (nameMore fuel (cs.drop (cs.takeWhile isLetterChar).length)).1,
             (nameMore fuel (cs.drop (cs.takeWhile isLetterChar).length)).2)
        else ([], l)
      | [] => ([], l)

/-- Drops the optional (uncaptured) closing quote: the trailing `"?`. -/
def quoteStrip (l : Str) : Str :=
  if l.head? = some '"' then l.drop 1 else l

/-- `([A-Z][a-z]+(?:\s+[A-Z][a-z]+)*)"?` under the `i` flag: the captured
name followed by an optional (uncaptured) closing double quote. -/
def nameSeq (l : Str) : Option (Str × Str) :=
  match l with
  | [] => none
  | c :: cs =>
    if isLetterChar c then
      if (cs.takeWhile isLetterChar).isEmpty then none
      else
        some (c :: cs.takeWhile isLetterChar
                ++ (nameMore (cs.length + 1) (cs.drop (cs.takeWhile isLetterChar).length)).1,
              quoteStrip
                ((nameMore (cs.length + 1) (cs.drop (cs.takeWhile isLetterChar).length)).2))
    else none

/-- Shape of a keyword-pass capture tail under the `i` flag: whitespace runs
each followed by an alphabetic word of length at least 2 (any case). -/
inductive TailShape : Str → Prop
  | nil : TailShape []
  | cons (ws w rest : Str) : ws ≠ [] → (∀ c ∈ ws, isWsChar c = true) →
      2 ≤ w.length → (∀ c ∈ w, isLetterChar c = true) → TailShape rest →
      TailShape (ws ++ w ++ rest)

/-- Shape of a whole keyword-pass capture under the `i` flag: an alphabetic
word of length at least 2 (any case), then a `TailShape` tail. -/
def GoodName (l : Str) : Prop :=
  ∃ w rest, l = w ++ rest ∧ 2 ≤ w.length ∧ (∀ c ∈ w, isLetterChar c = true) ∧ TailShape rest

/-- `"?` before the capture: if an opening quote is present it is consumed
(when the quote is present but no name follows, backtracking to the empty
alternative also fails, since `[A-Z]` cannot match the quote itself). -/
def matchNameQ (l : Str) : Option (Str × Str) :=
  if l.head? = some '"' then nameSeq (l.drop 1) else nameSeq l

/-- The greedy optional `(?:called\s+)?` group followed by the name: matches
when `called` (case-insensitively) and at least one whitespace character are
present, after which the name pattern must match. -/
def matchCalled (l1 : Str) : Option (Str × Str) :=
  if ciStarts "called".data l1 then
    if ((l1.drop 6).takeWhile isWsChar).isEmpty then none
    else matchNameQ ((l1.drop 6).drop ((l1.drop 6).takeWhile isWsChar).length)
  else none

/-- The part of `keywordPattern` after the keyword:
`\s+(?:called\s+)?"?(name)"?`.  The greedy optional `called` group is tried
first and the engine backtracks to the empty alternative when the rest of
the pattern fails after it. -/
def matchAfterKw (l : Str) : Option (Str × Str) :=
  if (l.takeWhile isWsChar).isEmpty then none
  else
    match matchCalled (l.drop (l.takeWhile isWsChar).length) with
    | some r => some r
    | none => matchNameQ (l.drop (l.takeWhile isWsChar).length)

/-- The keyword alternation `(?:restaurant|cafe|...)` at one position:
alternatives are tried in source order and, when a keyword matches but the
rest of the pattern fails, the engine backtracks to the next alternative. -/
def tryKeywords : List Str → Str → Option (Str × Str)
  | [], _ => none
  | kw :: kws, l =>
    if ciStarts kw l then
      match matchAfterKw (l.drop kw.length) with
      | some r => some r
      | none => tryKeywords kws l
    else tryKeywords kws l

/-- The exec loop of `keywordPattern` (flags `gi`): leftmost match, then
scanning resumes from the end of the whole match. -/
def kwScanAux (fuel : Nat) (l : Str) (i : Nat) : List (Str × Nat) :=
  match fuel with
  | 0 => []
  | fuel + 1 =>
    match l with
    | [] => []
    | c :: cs =>
      match tryKeywords restaurantKeywords (c :: cs) with
      | some (cap, rest) =>
        (cap, i) :: kwScanAux fuel rest (i + ((c :: cs).length - rest.length))
      | none => kwScanAux fuel cs (i + 1)

/-- Keyword-adjacency candidates of a text (pass 2). -/
def keywordCandidates (text : Str) : List (Str × Nat) :=
  kwScanAux (text.length + 1) text 0

example : quotedCandidates "a \"Pizza House\" b".data = [("Pizza House".data, 2)] := by decide
example : keywordCandidates "restaurant foo".data = [("foo".data, 0)] := by decide
example : keywordCandidates "a restaurant called Burger King".data = [("Burger King".data, 2)] := by decide

/-- One word of `capitalizedNamePattern` (no `i` flag): an uppercase letter
followed by one or more lowercase letters.  Returns (word, rest). -/
def parseCapWord (l : Str) : Option (Str × Str) :=
  match l with
  | [] => none
  | c :: cs =>
    if isUpperChar c then
      let lows := cs.takeWhile isLowerChar
      if lows.isEmpty then none else some (c :: lows, cs.drop lows.length)
    else none

/-- The trailing `\b` of `capitalizedNamePattern`: satisfied at the end of
input or before a non-word character. -/
def capBoundary (l : Str) : Bool :=
  match l.head? with
  | none => true
  | some c => ¬isWordChar c

/-- Greedy `(?:\s+[A-Z][a-z]+)*\b` after the first word: iterations are taken
greedily; when the final `\b` fails after the last word the engine gives that
word back, after which the boundary falls on whitespace and holds.  Returns
(captured tail, rest); an empty captured tail leaves the boundary check to
the caller. -/
def capTail (fuel : Nat) (l : Str) : Str × Str :=
  match fuel with
  | 0 => ([], l)
  | fuel + 1 =>
    if (l.takeWhile isWsChar).isEmpty then ([], l)
    else
      match parseCapWord (l.drop (l.takeWhile isWsChar).length) with
      | none => ([], l)
      | some (w, r) =>
        if (capTail fuel r).1.isEmpty then
          if capBoundary r then (l.takeWhile isWsChar ++ w, r) else ([], l)
        else (l.takeWhile isWsChar ++ w ++ (capTail fuel r).1, (capTail fuel r).2)

/-- `\b([A-Z][a-z]+(?:\s+[A-Z][a-z]+)*)\b` matched at the current position
(the leading `\b` is checked by the scan loop).  A lone word followed by a
word character (e.g. a digit or another capital) fails, matching the regex:
shortening a letter run always leaves the boundary inside a word. -/
def matchCapAt (l : Str) : Option (Str × Str) :=
  match parseCapWord l with
  | none => none
  | some (w1, r1) =>
    if (capTail (r1.length + 1) r1).1.isEmpty then
      if capBoundary r1 then some (w1, r1) else none
    else some (w1 ++ (capTail (r1.length + 1) r1).1, (capTail (r1.length + 1) r1).2)

/-- The exec loop of `capitalizedNamePattern` (flag `g`).  `prevWord` records
whether the character before the current position is a word character, which
decides the leading `\b`; after a match it is true (a match ends in a
lowercase letter). -/
def capScanAux (fuel : Nat) (prevWord : Bool) (l : Str) : List Str :=
  match fuel with
  | 0 => []
  | fuel + 1 =>
    match l with
    | [] => []
    | c :: cs =>
      if ¬prevWord then
        match matchCapAt (c :: cs) with
        | some (cap, rest) => cap :: capScanAux fuel true rest
        | none => capScanAux fuel (isWordChar c) cs
      else capScanAux fuel (isWordChar c) cs

/-- Bare-capitalization candidates of a text (`potentialNames`, pass 3). -/
def capitalizedCandidates (text : Str) : List Str :=
  capScanAux (text.length + 1) false text

/-- The pass-3 gate: the lower-cased text contains `restaurant`, `food` or
`eat`. -/
def hasFoodContext (text : Str) : Bool :=
  containsSeq (lowerStr text) "restaurant".data ∨
  containsSeq (lowerStr text) "food".data ∨
  containsSeq (lowerStr text) "eat".data

/-- The shared insertion step of passes 1 and 2 (the source repeats this
block verbatim in both loops): trim the capture, keep it when its length is
in (2, 100), then either insert a fresh record under the lower-cased key or
bump the existing record's `mentions`. -/
def addCandidate (sourceType : SourceKind) (sourceId text : Str)
    (m : MMap) (cand : Str × Nat) : MMap :=
  if 2 < (jsTrim cand.1).length ∧ (jsTrim cand.1).length < 100 then
    match mlookup m (lowerStr (jsTrim cand.1)) with
    | none =>
      m ++ [(lowerStr (jsTrim cand.1),
             ⟨jsTrim cand.1, sourceType, sourceId, snippetAt text cand.2, 1⟩)]
    | some _ => mbump m (lowerStr (jsTrim cand.1))
  else m

/-- Snippet for pass 3: the source recomputes the offset with
`text.indexOf(name)`; the `none` branch mirrors `indexOf` returning `-1`
(then `substring(Math.max(0,-51), Math.min(len,49))`), which is unreachable
because the name comes from the text. -/
def snippetByIndexOf (text name : Str) : Str :=
  match idxOfSeq text name with
  | some i => snippetAt text i
  | none => text.take (min text.length 49)

/-- The pass-3 insertion step: keep names of length in (3, 100) that are not
themselves vocabulary keywords; insert only when the key is absent — an
existing entry is left completely unchanged (there is no else branch in the
source). -/
def addCapName (sourceType : SourceKind) (sourceId text : Str)
    (m : MMap) (name : Str) : MMap :=
  if 3 < name.length ∧ name.length < 100 ∧ ¬restaurantKeywords.contains (lowerStr name) then
    match mlookup m (lowerStr name) with
    | none =>
      m ++ [(lowerStr name, ⟨name, sourceType, sourceId, snippetByIndexOf text name, 1⟩)]
    | some _ => m
  else m

/-- `extractRestaurantMentions` (lines 116-198): three passes over one text
sharing one deduplication map, then the map's values in insertion order. -/
def extractRestaurantMentions (text : Str) (sourceType : SourceKind)
    (sourceId : Str) : List Mention :=
  if text.isEmpty then []
  else if hasFoodContext text then
    ((capitalizedCandidates text).foldl (addCapName sourceType sourceId text)
      ((keywordCandidates text).foldl (addCandidate sourceType sourceId text)
        ((quotedCandidates text).foldl (addCandidate sourceType sourceId text) []))).map (·.2)
  else
    ((keywordCandidates text).foldl (addCandidate sourceType sourceId text)
      ((quotedCandidates text).foldl (addCandidate sourceType sourceId text) [])).map (·.2)

/-- The deduplication key that a pass-1/2 candidate contributes, when its
trimmed name passes the length gate. -/
def candKey (c : Str × Nat) : Option Str :=
  if 2 < (jsTrim c.1).length ∧ (jsTrim c.1).length < 100 then
    some (lowerStr (jsTrim c.1))
  else none

/-- How many pass-1/2 candidates in `cands` contribute the key `k`. -/
def countKey (k : Str) (cands : List (Str × Nat)) : Nat :=
  (cands.filter (fun c => candKey c = some k)).length

/-- The aggregated record per distinct establishment. -/
structure AggEntry where
  name : Str
  count : Nat
  sources : List Str
deriving DecidableEq, Repr

/-- The aggregation map, insertion ordered, keyed by lower-cased name. -/
abbrev AMap := List (Str × AggEntry)

/-- `Map.prototype.get` for the aggregation map. -/
def alookup (m : AMap) (k : Str) : Option AggEntry :=
  match m with
  | [] => none
  | p :: ps => if p.1 = k then some p.2 else alookup ps k

/-- In-place update of the entry stored under `k`. -/
def aupdate (m : AMap) (k : Str) (f : AggEntry → AggEntry) : AMap :=
  m.map (fun p => if p.1 = k then (p.1, f p.2) else p)

/-- One step of the aggregation loop (lines 232-247): an existing entry
accumulates the occurrence count and appends the source id only when not
already present; a new lower-cased key appends a fresh entry. -/
def aggStep (agg : AMap) (mention : Mention) : AMap :=
  match alookup agg (lowerStr mention.name) with
  | some _ =>
    aupdate agg (lowerStr mention.name) (fun e =>
      { e with
        count := e.count + mention.mentions
        sources :=
          if e.sources.contains mention.sourceId then e.sources
          else e.sources ++ [mention.sourceId] })
  | none =>
    agg ++ [(lowerStr mention.name, ⟨mention.name, mention.mentions, [mention.sourceId]⟩)]

/-- `aggregateRestaurantMentions` (lines 229-250): merge mentions into one
entry per lower-cased name. -/
def aggregateRestaurantMentions (mentions : List Mention) : AMap :=
  mentions.foldl aggStep []

/-- The aggregated count stored under key `k` (0 when absent). -/
def lookCount (m : AMap) (k : Str) : Nat :=
  match alookup m k with
  | some e => e.count
  | none => 0

/-- The aggregated count that `aggregateRestaurantMentions` reports for `k`. -/
def aggCount (k : Str) (l : List Mention) : Nat :=
  lookCount (aggregateRestaurantMentions l) k

/-- The total occurrence count contributed by mentions whose lower-cased
name is `k`. -/
def sumMentions (k : Str) (l : List Mention) : Nat :=
  ((l.filter (fun mn => lowerStr mn.name = k)).map (·.mentions)).sum

example :
    (extractRestaurantMentions "I really loved \"The Pasta House\" for dinner last night.".data
      SourceKind.comment "t1".data).map (·.name) = ["The Pasta House".data] := by decide
example :
    (extractRestaurantMentions "eat \"Pasta\" Pasta".data SourceKind.comment "c1".data).map
      (fun m => (m.name, m.mentions)) = [("Pasta".data, 1)] := by decide
example : capitalizedCandidates "eat \"Pasta\" Pasta".data = ["Pasta".data, "Pasta".data] := by decide
example :
    aggregateRestaurantMentions
      [⟨"Pizza House".data, SourceKind.post_title, "d1".data, [], 1⟩,
       ⟨"pizza house".data, SourceKind.comment, "d2".data, [], 1⟩] =
    [("pizza house".data, ⟨"Pizza House".data, 2, ["d1".data, "d2".data]⟩)] := by decide

/-- `CacheService.rateLimitTracker`, as a total map from identifier to its
list of request timestamps (the source's lazy `if (!has) set([])`
initialization is the map's default `[]`).  Timestamps are epoch millis. -/
abbrev RateTracker := Str → List Int

/-- `rateLimitTracker.set(identifier, l)`. -/
def setTracker (tr : RateTracker) (id : Str) (l : List Int) : RateTracker :=
  fun x => if x = id then l else tr x

/-- `maxRequestsPerMinute`. -/
def maxRequestsPerMinute : Nat := 30

/-- `CacheService.isWithinRateLimit` (lines 289-307): `recentRequests` is the
stored list pruned to the trailing 60-second window (`timestamp > now - 60000`,
strict); admit (pushing `now` and storing the pruned list) when its length is
below the ceiling, otherwise refuse leaving the tracker untouched. -/
def isWithinRateLimit (tr : RateTracker) (id : Str) (now : Int) : Bool × RateTracker :=
  if ((tr id).filter (fun t => now - 60000 < t)).length < maxRequestsPerMinute then
    (true, setTracker tr id (((tr id).filter (fun t => now - 60000 < t)) ++ [now]))
  else (false, tr)

/-- `CacheService.withRateLimit` (lines 354-363): `none` is the `null`
refusal sentinel; `computeFn` is invoked only on admission. -/
def withRateLimit {α : Type} (tr : RateTracker) (id : Str) (now : Int)
    (computeFn : Unit → α) : Option α × RateTracker :=
  match isWithinRateLimit tr id now with
  | (true, tr2) => (some (computeFn ()), tr2)
  | (false, tr2) => (none, tr2)

/-- A sequence of `withRateLimit` calls for one identity at the given
timestamps, collecting whether each call was admitted. -/
def runCalls {α : Type} (tr : RateTracker) (id : Str) (times : List Int)
    (computeFn : Unit → α) : List Bool × RateTracker :=
  match times with
  | [] => ([], tr)
  | t :: ts =>
    ((withRateLimit tr id t computeFn).1.isSome ::
       (runCalls (withRateLimit tr id t computeFn).2 id ts computeFn).1,
     (runCalls (withRateLimit tr id t computeFn).2 id ts computeFn).2)

/-- The `NodeCache` store: per key an entry `(stored value, expiry)`.  The
stored value is `Option V` because the TypeScript value type may include
`undefined` (`none`); an absent key is the outer `none`. -/
abbrev CacheStore (V : Type) := Str → Option (Option V × Int)

/-- `CacheService.get` (lines 312-320): an entry past its expiry is treated
as absent; a stored `undefined` is indistinguishable from a miss. -/
def cacheGet {V : Type} (c : CacheStore V) (k : Str) (now : Int) : Option V :=
  match c k with
  | some (v, exp) => if now ≤ exp then v else none
  | none => none

/-- `CacheService.set` (lines 325-331): unconditional overwrite with a fresh
expiry (`ttl` in the same time unit as `now`). -/
def cacheSet {V : Type} (c : CacheStore V) (k : Str) (v : Option V) (ttl now : Int) :
    CacheStore V :=
  fun x => if x = k then some (v, now + ttl) else c x

/-- `CacheService.getOrCompute` (lines 336-349): the presence check is
`cached !== undefined`; on a miss the compute function runs and its result
is stored unconditionally. -/
def getOrCompute {V : Type} (c : CacheStore V) (k : Str)
    (computeFn : Unit → Option V) (ttl now : Int) : Option V × CacheStore V :=
  match cacheGet c k now with
  | some v => (some v, c)
  | none =>
    let computed := computeFn ()
    (computed, cacheSet c k computed ttl now)

/-- A post returned by the content-search client. -/
structure RedditPost where
  id : Str
  title : Str
  selftext : Str

/-- A comment returned by the content-search client. -/
structure RedditComment where
  id : Str
  body : Str

/-- The content-search client's result shape. -/
structure RedditResults where
  posts : List RedditPost
  comments : List RedditComment

/-- The place-lookup client's result shape. -/
structure MapData where
  name : Str
  url : Str

/-- `RestaurantResult` from the orchestrator. -/
structure RestaurantResult where
  name : Str
  sentimentScore : ℚ
  sentimentLabel : Label
  sentimentComparative : ℚ
  mentionCount : Nat
  mapUrl : Str
  sources : List Str

/-- `SearchResult` from the orchestrator. -/
structure SearchResult where
  query : Str
  city : Str
  restaurants : List RestaurantResult
  totalResults : Nat
  cached : Bool
  timestamp : Int

/-- The orchestrator's external dependencies.  `searchReddit` and `enrich`
may throw (`Except.error`); `scorer` is the sentiment library; `cacheGetDep`
is the shared cache's state at call time; `now` is `Date.now()`. -/
structure OrchestratorDeps where
  searchReddit : Str → List Str → Except Str RedditResults
  enrich : Str → Str → Except Str MapData
  scorer : Str → Option (ℚ × ℚ)
  cacheGetDep : Str → Option SearchResult
  now : Int

/-- `extractRestaurantMentionsFromPosts` (lines 206-222). -/
def extractRestaurantMentionsFromPosts (posts : List RedditPost)
    (comments : List RedditComment) : List Mention :=
  ((posts.map (fun p =>
      extractRestaurantMentions p.title SourceKind.post_title p.id ++
      extractRestaurantMentions p.selftext SourceKind.post_body p.id)).flatten) ++
  ((comments.map (fun c =>
      extractRestaurantMentions c.body SourceKind.comment c.id)).flatten)

/-- `getTargetSubreddits` (lines 414-420): base list plus city-derived names
(whitespace stripped), deduplicated keeping first occurrences, dropping empty
names. -/
def getTargetSubreddits (city : Str) : List Str :=
  let citySubreddit := (lowerStr city).filter (fun c => ¬isWsChar c)
  let base := ["food".data, "restaurants".data, "foodit".data, "eatingout".data]
  let relevant := [citySubreddit, citySubreddit ++ "food".data, "AskReddit".data]
  ((base ++ relevant).filter (fun sub => 0 < sub.length)).eraseDups

/-- The comparator of the final `restaurants.sort`: mention count descending,
then sentiment score descending. -/
def resultLe (a b : RestaurantResult) : Bool :=
  if a.mentionCount ≠ b.mentionCount then b.mentionCount < a.mentionCount
  else b.sentimentScore ≤ a.sentimentScore

/-- Stable insertion sort modelling the engine's stable `Array.sort`. -/
def insertSorted {α : Type} (le : α → α → Bool) (a : α) : List α → List α
  | [] => [a]
  | b :: bs => if le a b then a :: b :: bs else b :: insertSorted le a bs

/-- Stable sort by `le`. -/
def sortByLe {α : Type} (le : α → α → Bool) (l : List α) : List α :=
  l.foldr (insertSorted le) []

/-- The orchestrator's cache key: `search:{city lowered}:{query lowered}`. -/
def searchCacheKey (city query : Str) : Str :=
  "search:".data ++ lowerStr city ++ [':'] ++ lowerStr query

/-- `searchAndAggregate` (lines 462-544).  The whole pipeline sits in a
`try`: a cache hit returns the stored response with `cached` forced true;
a `searchReddit` failure reaches the outer catch, which returns the empty
well-formed response; a per-restaurant `enrich` failure is caught inside the
loop and drops only that restaurant.  The trailing `cacheService.set` is a
state write that does not affect the returned value and is elided. -/
def searchAndAggregate (deps : OrchestratorDeps) (city query : Str) : SearchResult :=
  match deps.cacheGetDep (searchCacheKey city query) with
  | some cached => { cached with cached := true }
  | none =>
    match deps.searchReddit (query ++ " restaurant".data) (getTargetSubreddits city) with
    | Except.error _ => ⟨query, city, [], 0, false, deps.now⟩
    | Except.ok rr =>
      let restaurantMentions := extractRestaurantMentionsFromPosts rr.posts rr.comments
      let aggregated := aggregateRestaurantMentions restaurantMentions
      let restaurants := aggregated.foldl
        (fun acc kv =>
          let md := kv.2
          let postText := List.intercalate [' ']
            ((rr.posts.filter (fun p => md.sources.contains p.id)).map
              (fun p => p.title ++ ' ' :: p.selftext))
          let commentTexts :=
            (rr.comments.filter (fun c => md.sources.contains c.id)).map (·.body)
          let sentiment := analyzeRestaurantSentiment deps.scorer postText commentTexts
          match deps.enrich md.name city with
          | Except.error _ => acc
          | Except.ok mapData =>
            acc ++ [⟨mapData.name, sentiment.score, sentiment.label,
                     sentiment.comparative, md.count, mapData.url, md.sources⟩])
        []
      let sorted := sortByLe resultLe restaurants
      ⟨query, city, sorted, sorted.length, false, deps.now⟩

/-! ## Sentiment combiner and label classification (claims C4, C5) -/

theorem sentimentLabel_zero : sentimentLabel 0 = Label.neutral := by
  norm_num [sentimentLabel]

theorem round2_zero : round2 0 = 0 := by norm_num [round2, jsRound]

theorem round4_zero : round4 0 = 0 := by norm_num [round4, jsRound]

/-- Claim C5: label classification uses strict inequalities at both
derivation sites: exactly 0.1 and exactly -0.1 are neutral; positive iff
comparative > 0.1; negative iff comparative < -0.1; and both
`analyzeSentiment` and `analyzeRestaurantSentiment` derive their label by
applying this classifier to their (unrounded) comparative value. -/
theorem sentimentLabel_strict (c : ℚ) (scorer : Str → Option (ℚ × ℚ))
    (t p : Str) (cs : List Str) :
    sentimentLabel (1/10) = Label.neutral
  ∧ sentimentLabel (-(1/10)) = Label.neutral
  ∧ (sentimentLabel c = Label.positive ↔ 1/10 < c)
  ∧ (sentimentLabel c = Label.negative ↔ c < -(1/10))
  ∧ (∃ q, (analyzeSentiment scorer t).label = sentimentLabel q
        ∧ (analyzeSentiment scorer t).comparative = q)
  ∧ (∃ q, (analyzeRestaurantSentiment scorer p cs).label = sentimentLabel q
        ∧ (analyzeRestaurantSentiment scorer p cs).comparative = round4 q) := by
  refine ⟨by norm_num [sentimentLabel], by norm_num [sentimentLabel], ?_, ?_, ?_, ?_⟩
  · unfold sentimentLabel
    split_ifs with h1 h2 <;> simp_all
  · unfold sentimentLabel
    split_ifs with h1 h2 <;> simp_all
    linarith
  · match hs : scorer t with
    | some (s, q) => exact ⟨q, by simp [analyzeSentiment, hs], by simp [analyzeSentiment, hs]⟩
    | none =>
      exact ⟨0, by simp [analyzeSentiment, hs, sentimentLabel_zero],
        by simp [analyzeSentiment, hs]⟩
  · by_cases h : (combinedTexts p cs).length = 0
    · exact ⟨0, by simp [analyzeRestaurantSentiment, h, sentimentLabel_zero],
        by simp [analyzeRestaurantSentiment, h, round4_zero]⟩
    · exact ⟨combinedComparative scorer p cs, by simp [analyzeRestaurantSentiment, h],
        by simp [analyzeRestaurantSentiment, h]⟩

theorem sentimentLabel_strict_witness :
    sentimentLabel (1/10) = Label.neutral ∧ sentimentLabel (-(1/10)) = Label.neutral :=
  ⟨(sentimentLabel_strict 0 (fun _ => none) [] [] []).1,
   (sentimentLabel_strict 0 (fun _ => none) [] [] []).2.1⟩

/-- Claim C4 counterexample: the combiner does NOT filter out the blank
string "   " (only strictly empty strings are filtered), and the scorer IS
invoked on it — a scorer returning a nonzero value on the blank string makes
the result differ from the neutral zero result, so the combined result is
not independent of the scorer on `["", "   "]`. -/
theorem analyzeRestaurantSentiment_blank_cex :
    combinedTexts [] ["   ".data] = ["   ".data]
  ∧ analyzeRestaurantSentiment (fun _ => some (5, 5)) [] ["   ".data]
      ≠ ⟨0, 0, Label.neutral⟩ := by
  have h : combinedTexts [] ["   ".data] = ["   ".data] := by decide
  refine ⟨h, ?_⟩
  rw [analyzeRestaurantSentiment]
  rw [combinedScore, combinedComparative, h]
  norm_num [analyzeSentiment, sentimentLabel, round2, round4, jsRound]

/-- Claim C4 (amended): the combiner filters out only strictly empty
strings; when nothing survives the filter (in particular `combine([])`) it
returns the neutral zero result without invoking the scorer; a blank
(whitespace-only) string survives the filter and is scored, and
`combine(["", "   "])` still yields the neutral zero result because the
word-count-normalized scorer yields zero (or throws, treated as zero) on a
text with no scorable words. -/
theorem analyzeRestaurantSentiment_empty_behavior (scorer : Str → Option (ℚ × ℚ))
    (postText : Str) (comments : List Str) :
    (combinedTexts postText comments = [] →
      analyzeRestaurantSentiment scorer postText comments = ⟨0, 0, Label.neutral⟩)
  ∧ analyzeRestaurantSentiment scorer [] [] = ⟨0, 0, Label.neutral⟩
  ∧ ((scorer "   ".data = some (0, 0) ∨ scorer "   ".data = none) →
      analyzeRestaurantSentiment scorer [] ["   ".data] = ⟨0, 0, Label.neutral⟩) := by
  refine ⟨?_, ?_, ?_⟩
  · intro h
    rw [analyzeRestaurantSentiment]
    simp [h]
  · rw [analyzeRestaurantSentiment]
    simp [combinedTexts]
  · intro h
    have hfil : combinedTexts [] ["   ".data] = ["   ".data] := by decide
    have hzero : analyzeSentiment scorer "   ".data = ⟨0, 0, Label.neutral⟩ := by
      rcases h with h | h <;>
        simp [analyzeSentiment, h, sentimentLabel_zero]
    rw [analyzeRestaurantSentiment]
    rw [combinedScore, combinedComparative, hfil]
    simp only [List.map_cons, List.map_nil, hzero]
    norm_num [sentimentLabel_zero, round2_zero, round4_zero]

theorem analyzeRestaurantSentiment_empty_behavior_witness :
    ((fun (_ : Str) => some ((0 : ℚ), (0 : ℚ))) "   ".data = some (0, 0)
        ∨ (fun (_ : Str) => some ((0 : ℚ), (0 : ℚ))) "   ".data = none)
  ∧ analyzeRestaurantSentiment (fun _ => some (0, 0)) [] ["   ".data]
      = ⟨0, 0, Label.neutral⟩ :=
  ⟨Or.inl rfl,
   (analyzeRestaurantSentiment_empty_behavior (fun _ => some (0, 0)) [] ["   ".data]).2.2
     (Or.inl rfl)⟩

/-! ## Cache (claim C10) -/

/-- Claim C10: `getOrCompute` caches only defined values.  Starting from a
miss: when the compute function yields a defined value it is stored, and a
second call within the TTL returns the stored value with the cache untouched,
for every (hence without invoking the) second compute function; when the
compute function yields `undefined`, the stored `undefined` never satisfies
the `cached !== undefined` presence check, so every subsequent call invokes
its compute function again and returns that function's result. -/
theorem getOrCompute_defined_only {V : Type} (c : CacheStore V) (k : Str)
    (f g : Unit → Option V) (v : V) (ttl now now2 : Int)
    (hmiss : cacheGet c k now = none) :
    (f () = some v →
      getOrCompute c k f ttl now = (some v, cacheSet c k (some v) ttl now)
      ∧ (now2 ≤ now + ttl →
          getOrCompute (cacheSet c k (some v) ttl now) k g ttl now2
            = (some v, cacheSet c k (some v) ttl now)))
  ∧ (f () = none →
      getOrCompute c k f ttl now = (none, cacheSet c k none ttl now)
      ∧ getOrCompute (cacheSet c k none ttl now) k g ttl now2
          = (g (), cacheSet (cacheSet c k none ttl now) k (g ()) ttl now2)) := by
  constructor
  · intro hf
    constructor
    · rw [getOrCompute, hmiss, hf]
    · intro hin
      have hhit : cacheGet (cacheSet c k (some v) ttl now) k now2 = some v := by
        simp [cacheGet, cacheSet, hin]
      rw [getOrCompute, hhit]
  · intro hf
    constructor
    · rw [getOrCompute, hmiss, hf]
    · have hmiss2 : cacheGet (cacheSet c k none ttl now) k now2 = none := by
        simp [cacheGet, cacheSet]
      rw [getOrCompute, hmiss2]

theorem getOrCompute_defined_only_witness :
    cacheGet (fun _ => (none : Option (Option Nat × Int))) "k".data 0 = none
  ∧ getOrCompute (fun _ => none) "k".data (fun _ => some 7) 10 0
      = (some 7, cacheSet (fun _ => none) "k".data (some 7) 10 0) := by
  refine ⟨rfl, ?_⟩
  exact ((getOrCompute_defined_only (fun _ => none) "k".data (fun _ => some 7)
    (fun _ => some 9) 7 10 0 5 rfl).1 rfl).1

/-! ## Orchestrator (claim C1) -/

/-- Claim C1: `searchAndAggregate` never surfaces a dependency failure.  On
a cache miss, if the content-search step throws, the result is exactly the
empty well-formed response (empty list, `totalResults = 0`, `cached = false`);
and on every cache miss the response is well formed: `totalResults` equals
the number of returned restaurants and `cached` is false.  (The function is
total by construction: the source's outer `try/catch` converts every
internal throw into the empty response.) -/
theorem searchAndAggregate_total (deps : OrchestratorDeps) (city query : Str)
    (hmiss : deps.cacheGetDep (searchCacheKey city query) = none) :
    (∀ e, deps.searchReddit (query ++ " restaurant".data) (getTargetSubreddits city)
        = Except.error e →
      searchAndAggregate deps city query = ⟨query, city, [], 0, false, deps.now⟩)
  ∧ (searchAndAggregate deps city query).totalResults
      = (searchAndAggregate deps city query).restaurants.length
  ∧ (searchAndAggregate deps city query).cached = false := by
  rw [searchAndAggregate, hmiss]
  match hsr : deps.searchReddit (query ++ " restaurant".data) (getTargetSubreddits city) with
  | Except.error e => exact ⟨fun _ _ => rfl, rfl, rfl⟩
  | Except.ok rr =>
    refine ⟨fun e he => ?_, rfl, rfl⟩
    exact absurd he (by simp)

theorem searchAndAggregate_total_witness :
    searchAndAggregate
      ⟨fun _ _ => Except.error "unavailable".data, fun _ _ => Except.ok ⟨"m".data, "u".data⟩,
       fun _ => none, fun _ => none, 0⟩ "New York".data "pizza".data
      = ⟨"pizza".data, "New York".data, [], 0, false, 0⟩ :=
  (searchAndAggregate_total
    ⟨fun _ _ => Except.error "unavailable".data, fun _ _ => Except.ok ⟨"m".data, "u".data⟩,
     fun _ => none, fun _ => none, 0⟩ "New York".data "pizza".data rfl).1
    "unavailable".data rfl

/-! ## Rate limiting (claim C2) -/

theorem setTracker_self (tr : RateTracker) (id : Str) (l : List Int) :
    setTracker tr id l id = l := by simp [setTracker]

theorem setTracker_other (tr : RateTracker) (id id2 : Str) (l : List Int)
    (h : id2 ≠ id) : setTracker tr id l id2 = tr id2 := by simp [setTracker, h]

theorem setTracker_setTracker (tr : RateTracker) (id : Str) (l l2 : List Int) :
    setTracker (setTracker tr id l) id l2 = setTracker tr id l2 := by
  funext x
  simp only [setTracker]
  split <;> rfl

theorem withRateLimit_snd {α : Type} (tr : RateTracker) (id : Str) (now : Int)
    (f : Unit → α) :
    (withRateLimit tr id now f).2 = (isWithinRateLimit tr id now).2 := by
  rcases hiw : isWithinRateLimit tr id now with ⟨ok, tr2⟩
  rw [withRateLimit, hiw]
  cases ok <;> rfl

theorem isWithinRateLimit_snd_other (tr : RateTracker) (id id2 : Str) (now : Int)
    (h : id2 ≠ id) : (isWithinRateLimit tr id now).2 id2 = tr id2 := by
  rw [isWithinRateLimit]
  split
  · exact setTracker_other _ _ _ _ h
  · rfl

theorem filter_replicate_window (j : Nat) (now : Int) :
    (List.replicate j now).filter (fun t => now - 60000 < t) = List.replicate j now := by
  apply List.filter_eq_self.mpr
  intro a ha
  rw [List.eq_of_mem_replicate ha]
  simp only [decide_eq_true_eq]
  omega

theorem withRateLimit_admit_step {α : Type} (tr : RateTracker) (id : Str) (now : Int)
    (f : Unit → α)
    (h : ((tr id).filter (fun t => now - 60000 < t)).length < maxRequestsPerMinute) :
    withRateLimit tr id now f
      = (some (f ()),
         setTracker tr id (((tr id).filter (fun t => now - 60000 < t)) ++ [now])) := by
  rw [withRateLimit, isWithinRateLimit, if_pos h]

theorem withRateLimit_refuse_step {α : Type} (tr : RateTracker) (id : Str) (now : Int)
    (g : Unit → α)
    (h : maxRequestsPerMinute ≤ ((tr id).filter (fun t => now - 60000 < t)).length) :
    withRateLimit tr id now g = (none, tr) := by
  rw [withRateLimit, isWithinRateLimit, if_neg (by omega)]

theorem runCalls_replicate_admit {α : Type} (id : Str) (now : Int) (f : Unit → α) :
    ∀ (m j : Nat), j + m ≤ 30 →
      runCalls (setTracker (fun _ => []) id (List.replicate j now)) id
        (List.replicate m now) f
      = (List.replicate m true, setTracker (fun _ => []) id (List.replicate (j + m) now)) := by
  intro m
  induction m with
  | zero => intro j hj; simp [runCalls]
  | succ m ih =>
    intro j hj
    have hlen : (((setTracker (fun _ => ([] : List Int)) id (List.replicate j now)) id).filter
        (fun t => now - 60000 < t)).length < maxRequestsPerMinute := by
      rw [setTracker_self, filter_replicate_window, List.length_replicate]
      rw [maxRequestsPerMinute]
      omega
    have hstep := withRateLimit_admit_step
      (setTracker (fun _ => []) id (List.replicate j now)) id now f hlen
    rw [setTracker_self, filter_replicate_window, setTracker_setTracker,
      ← List.replicate_succ'] at hstep
    rw [List.replicate_succ, runCalls, hstep]
    have ihj := ih (j + 1) (by omega)
    simp only []
    rw [ihj]
    refine congrArg₂ Prod.mk rfl ?_
    have : j + 1 + m = j + (m + 1) := by omega
    rw [this]

theorem runCalls_append {α : Type} (id : Str) (f : Unit → α) :
    ∀ (ts1 ts2 : List Int) (tr : RateTracker),
      runCalls tr id (ts1 ++ ts2) f
        = ((runCalls tr id ts1 f).1 ++ (runCalls (runCalls tr id ts1 f).2 id ts2 f).1,
           (runCalls (runCalls tr id ts1 f).2 id ts2 f).2) := by
  intro ts1
  induction ts1 with
  | nil => intro ts2 tr; simp [runCalls]
  | cons t ts ih =>
    intro ts2 tr
    rw [List.cons_append, runCalls, ih]
    rfl

/-- Claim C2: for one identity, a call is admitted (recording the current
timestamp and invoking `computeFn`) exactly when fewer than 30 timestamps lie
in the trailing 60-second window, and refused with the `null` sentinel and an
untouched tracker (its result not depending on `computeFn`, which is not
invoked) when 30 already do; the tracker of a distinct identity is never
touched; concretely, of 31 calls in one window the first 30 are admitted and
the 31st refused, after which a distinct identity is still admitted. -/
theorem withRateLimit_window {α : Type} (tr : RateTracker) (id id2 : Str) (now : Int)
    (f g : Unit → α) :
    (((tr id).filter (fun t => now - 60000 < t)).length < 30 →
      withRateLimit tr id now f
        = (some (f ()),
           setTracker tr id (((tr id).filter (fun t => now - 60000 < t)) ++ [now])))
  ∧ (30 ≤ ((tr id).filter (fun t => now - 60000 < t)).length →
      withRateLimit tr id now g = (none, tr))
  ∧ (id2 ≠ id → (withRateLimit tr id now f).2 id2 = tr id2)
  ∧ (runCalls (fun _ => []) id (List.replicate 31 now) f).1
      = List.replicate 30 true ++ [false]
  ∧ (id2 ≠ id →
      (withRateLimit (runCalls (fun _ => []) id (List.replicate 31 now) f).2 id2 now g).1
        = some (g ())) := by
  have hbase : (fun _ => ([] : List Int)) = setTracker (fun _ => []) id (List.replicate 0 now) := by
    funext x
    simp [setTracker]
  have h31 : (List.replicate 31 now) = List.replicate 30 now ++ [now] := by
    rw [← List.replicate_succ']
  have h30 := runCalls_replicate_admit id now f 30 0 (by omega)
  have hrefuse : withRateLimit (setTracker (fun _ => []) id (List.replicate (0 + 30) now))
      id now f = (none, setTracker (fun _ => []) id (List.replicate (0 + 30) now)) := by
    apply withRateLimit_refuse_step
    rw [setTracker_self]
    simp only [Nat.zero_add]
    rw [filter_replicate_window, List.length_replicate, maxRequestsPerMinute]
  have hrun : runCalls (fun _ => []) id (List.replicate 31 now) f
      = (List.replicate 30 true ++ [false],
         setTracker (fun _ => []) id (List.replicate (0 + 30) now)) := by
    rw [h31, hbase, runCalls_append, h30]
    simp only []
    rw [runCalls, hrefuse]
    simp [runCalls]
    rw [setTracker_setTracker]
  refine ⟨?_, ?_, ?_, ?_, ?_⟩
  · intro h
    exact withRateLimit_admit_step tr id now f (by rw [maxRequestsPerMinute]; omega)
  · intro h
    exact withRateLimit_refuse_step tr id now g (by rw [maxRequestsPerMinute]; omega)
  · intro h
    rw [withRateLimit_snd]
    exact isWithinRateLimit_snd_other tr id id2 now h
  · rw [hrun]
  · intro h
    rw [hrun]
    simp only []
    have hid2 : (setTracker (fun _ => ([] : List Int)) id (List.replicate (0 + 30) now)) id2
        = [] := setTracker_other _ _ _ _ h
    have : (((setTracker (fun _ => ([] : List Int)) id (List.replicate (0 + 30) now)) id2).filter
        (fun t => now - 60000 < t)).length < maxRequestsPerMinute := by
      rw [hid2]
      simp [maxRequestsPerMinute]
    rw [withRateLimit_admit_step _ _ _ _ this]

theorem withRateLimit_window_witness :
    ((((fun _ => ([] : List Int)) "a".data).filter (fun t => (0 : Int) - 60000 < t)).length < 30)
  ∧ withRateLimit (fun _ => ([] : List Int)) "a".data 0 (fun _ => (7 : Nat))
      = (some 7, setTracker (fun _ => []) "a".data
          ((((fun _ => ([] : List Int)) "a".data).filter (fun t => (0 : Int) - 60000 < t)) ++ [0])) :=
  ⟨by decide,
   (withRateLimit_window (fun _ => []) "a".data "b".data 0 (fun _ => 7) (fun _ => 7)).1
     (by decide)⟩

/-! ## Aggregation (claim C3) -/

theorem alookup_append (m : AMap) (p : Str × AggEntry) (k : Str) :
    alookup (m ++ [p]) k =
      match alookup m k with
      | some e => some e
      | none => if p.1 = k then some p.2 else none := by
  induction m with
  | nil => simp [alookup]
  | cons q m ih =>
    rw [List.cons_append, alookup]
    by_cases h : q.1 = k
    · simp [alookup, h]
    · simp only [alookup, if_neg h, ih]

theorem aupdate_cons (p : Str × AggEntry) (m : AMap) (k : Str) (f : AggEntry → AggEntry) :
    aupdate (p :: m) k f = (if p.1 = k then (p.1, f p.2) else p) :: aupdate m k f := rfl

theorem alookup_cons (p : Str × AggEntry) (ps : AMap) (k : Str) :
    alookup (p :: ps) k = if p.1 = k then some p.2 else alookup ps k := rfl

theorem alookup_aupdate_same (m : AMap) (k : Str) (f : AggEntry → AggEntry) (e : AggEntry)
    (h : alookup m k = some e) : alookup (aupdate m k f) k = some (f e) := by
  induction m with
  | nil => simp [alookup] at h
  | cons q m ih =>
    rw [alookup_cons] at h
    by_cases hq : q.1 = k
    · rw [if_pos hq] at h
      cases h
      simp [aupdate_cons, alookup_cons, hq]
    · rw [if_neg hq] at h
      rw [aupdate_cons, if_neg hq, alookup_cons, if_neg hq]
      exact ih h

theorem alookup_aupdate_none (m : AMap) (k : Str) (f : AggEntry → AggEntry)
    (h : alookup m k = none) : alookup (aupdate m k f) k = none := by
  induction m with
  | nil => simp [aupdate, alookup]
  | cons q m ih =>
    rw [alookup_cons] at h
    by_cases hq : q.1 = k
    · rw [if_pos hq] at h
      cases h
    · rw [if_neg hq] at h
      rw [aupdate_cons, if_neg hq, alookup_cons, if_neg hq]
      exact ih h

theorem alookup_aupdate_other (m : AMap) (k k2 : Str) (f : AggEntry → AggEntry)
    (h : k2 ≠ k) : alookup (aupdate m k f) k2 = alookup m k2 := by
  induction m with
  | nil => simp [aupdate, alookup]
  | cons q m ih =>
    rw [aupdate_cons, alookup_cons, alookup_cons]
    by_cases hq : q.1 = k
    · have hne : ¬q.1 = k2 := fun hqk => h (by rw [← hqk]; exact hq)
      rw [if_pos hq]
      simp only [hne, if_false, ih]
    · rw [if_neg hq]
      simp only [ih]

theorem lookCount_aggStep (acc : AMap) (mn : Mention) (k : Str) :
    lookCount (aggStep acc mn) k
      = lookCount acc k + (if lowerStr mn.name = k then mn.mentions else 0) := by
  by_cases hk : lowerStr mn.name = k
  · subst hk
    rw [aggStep]
    match h : alookup acc (lowerStr mn.name) with
    | some e =>
      rw [lookCount, alookup_aupdate_same _ _ _ _ h, lookCount, h]
      simp
    | none =>
      rw [lookCount, alookup_append, h, if_pos rfl, lookCount, h]
      simp
  · rw [aggStep]
    match h : alookup acc (lowerStr mn.name) with
    | some e =>
      rw [lookCount, alookup_aupdate_other _ _ _ _ (fun hc => hk hc.symm)]
      simp [lookCount, hk]
    | none =>
      rw [lookCount, alookup_append]
      match h2 : alookup acc k with
      | some e2 => simp [lookCount, h2, hk]
      | none => simp [lookCount, h2, hk]

theorem lookCount_foldl (k : Str) :
    ∀ (l : List Mention) (acc : AMap),
      lookCount (l.foldl aggStep acc) k = lookCount acc k + sumMentions k l := by
  intro l
  induction l with
  | nil => intro acc; simp [sumMentions]
  | cons mn l ih =>
    intro acc
    rw [List.foldl_cons, ih, lookCount_aggStep]
    rw [sumMentions, sumMentions]
    by_cases hk : lowerStr mn.name = k
    · rw [List.filter_cons_of_pos (by simp [hk])]
      simp [hk]
      omega
    · rw [List.filter_cons_of_neg (by simp [hk])]
      simp [hk]

theorem sources_nodup_foldl :
    ∀ (l : List Mention) (acc : AMap),
      (∀ k e, alookup acc k = some e → e.sources.Nodup) →
      ∀ k e, alookup (l.foldl aggStep acc) k = some e → e.sources.Nodup := by
  intro l
  induction l with
  | nil => intro acc hacc; exact hacc
  | cons mn l ih =>
    intro acc hacc
    rw [List.foldl_cons]
    apply ih
    intro k e he
    rw [aggStep] at he
    match h : alookup acc (lowerStr mn.name) with
    | some e0 =>
      rw [h] at he
      by_cases hk : k = lowerStr mn.name
      · subst hk
        rw [alookup_aupdate_same _ _ _ _ h] at he
        cases he
        have h0 := hacc _ _ h
        by_cases hc : mn.sourceId ∈ e0.sources
        · simpa [hc] using h0
        · have hcb : e0.sources.contains mn.sourceId = false := by simpa using hc
          simp only [hcb, Bool.false_eq_true, if_false]
          rw [List.nodup_append]
          refine ⟨h0, List.nodup_singleton _, ?_⟩
          intro a ha hb
          rw [List.mem_singleton] at hb
          subst hb
          exact hc ha
      · rw [alookup_aupdate_other _ _ _ _ hk] at he
        exact hacc _ _ he
    | none =>
      rw [h] at he
      rw [alookup_append] at he
      match h2 : alookup acc k with
      | some e2 =>
        rw [h2] at he
        cases he
        exact hacc _ _ h2
      | none =>
        rw [h2] at he
        by_cases hk : lowerStr mn.name = k
        · rw [if_pos hk] at he
          cases he
          exact List.nodup_singleton _
        · rw [if_neg hk] at he
          cases he

/-- Claim C3: aggregation merges case-insensitively; the final count per key
is invariant under permutation of the mention list (it is the sum of the
matching occurrence counts); every entry's `sources` list has no duplicate
document id; and concretely, aggregating `("Pizza House", 1)` then
`("pizza house", 1)` yields exactly one entry with count 2 whose display name
is the first-seen casing `"Pizza House"`. -/
theorem aggregateRestaurantMentions_merge (l1 l2 : List Mention) (k : Str) :
    (l1.Perm l2 → aggCount k l1 = aggCount k l2)
  ∧ (∀ e, alookup (aggregateRestaurantMentions l1) k = some e → e.sources.Nodup)
  ∧ aggregateRestaurantMentions
      [⟨"Pizza House".data, SourceKind.post_title, "d1".data, [], 1⟩,
       ⟨"pizza house".data, SourceKind.comment, "d2".data, [], 1⟩]
      = [("pizza house".data, ⟨"Pizza House".data, 2, ["d1".data, "d2".data]⟩)] := by
  refine ⟨?_, ?_, by decide⟩
  · intro hperm
    rw [aggCount, aggCount, aggregateRestaurantMentions, aggregateRestaurantMentions,
      lookCount_foldl, lookCount_foldl]
    rw [sumMentions, sumMentions]
    exact congrArg _ (List.Perm.sum_eq (List.Perm.map _ (List.Perm.filter _ hperm)))
  · exact sources_nodup_foldl l1 [] (by intro k2 e he; simp [alookup] at he) k

theorem aggregateRestaurantMentions_merge_witness :
    ([⟨"A".data, SourceKind.comment, "d1".data, [], 2⟩] :
        List Mention).Perm [⟨"A".data, SourceKind.comment, "d1".data, [], 2⟩]
  ∧ aggCount "a".data [⟨"A".data, SourceKind.comment, "d1".data, [], 2⟩]
      = aggCount "a".data [⟨"A".data, SourceKind.comment, "d1".data, [], 2⟩] :=
  ⟨List.Perm.refl _,
   (aggregateRestaurantMentions_merge
      [⟨"A".data, SourceKind.comment, "d1".data, [], 2⟩]
      [⟨"A".data, SourceKind.comment, "d1".data, [], 2⟩] "a".data).1 (List.Perm.refl _)⟩

/-! ## Keyword-adjacency pass shape (claim C6) -/

theorem nameMore_shape (fuel : Nat) : ∀ l : Str, TailShape (nameMore fuel l).1 := by
  induction fuel with
  | zero => intro l; exact TailShape.nil
  | succ fuel ih =>
    intro l
    rw [nameMore]
    by_cases hws : (l.takeWhile isWsChar).isEmpty
    · simp only [hws, if_true]
      exact TailShape.nil
    · simp only [hws, Bool.false_eq_true, if_false]
      match hdrop : l.drop (l.takeWhile isWsChar).length with
      | [] => exact TailShape.nil
      | c :: cs =>
        by_cases hc : isLetterChar c
        · simp only [hc, if_true]
          by_cases hlow : (cs.takeWhile isLetterChar).isEmpty
          · simp only [hlow, if_true]
            exact TailShape.nil
          · simp only [hlow, Bool.false_eq_true, if_false]
            have hshape := TailShape.cons (l.takeWhile isWsChar) (c :: cs.takeWhile isLetterChar)
              ((nameMore fuel (cs.drop (cs.takeWhile isLetterChar).length)).1)
              (by simpa [List.isEmpty_iff] using hws)
              (fun a ha => List.mem_takeWhile_imp ha)
              (by
                have : cs.takeWhile isLetterChar ≠ [] := by
                  simpa [List.isEmpty_iff] using hlow
                cases h : cs.takeWhile isLetterChar with
                | nil => exact absurd h this
                | cons x xs => simp [List.length_cons])
              (by
                intro a ha
                rcases List.mem_cons.mp ha with h | h
                · exact h ▸ hc
                · exact List.mem_takeWhile_imp h)
              (ih (cs.drop (cs.takeWhile isLetterChar).length))
            simpa [List.append_assoc] using hshape
        · simp only [hc, Bool.false_eq_true, if_false]
          exact TailShape.nil

theorem nameSeq_shape (l : Str) (cap rest : Str) (h : nameSeq l = some (cap, rest)) :
    GoodName cap := by
  match l with
  | [] => simp [nameSeq] at h
  | c :: cs =>
    rw [nameSeq] at h
    by_cases hc : isLetterChar c
    · rw [if_pos hc] at h
      by_cases hlow : (cs.takeWhile isLetterChar).isEmpty
      · rw [if_pos hlow] at h
        cases h
      · rw [if_neg hlow] at h
        have heq := (Option.some.injEq _ _).mp h
        have hcap : cap = c :: cs.takeWhile isLetterChar
            ++ (nameMore (cs.length + 1) (cs.drop (cs.takeWhile isLetterChar).length)).1 := by
          have := congrArg Prod.fst heq.symm
          simpa using this
        refine ⟨c :: cs.takeWhile isLetterChar,
          (nameMore (cs.length + 1) (cs.drop (cs.takeWhile isLetterChar).length)).1,
          by simpa using hcap, ?_, ?_, nameMore_shape _ _⟩
        · have : cs.takeWhile isLetterChar ≠ [] := by
            simpa [List.isEmpty_iff] using hlow
          cases h2 : cs.takeWhile isLetterChar with
          | nil => exact absurd h2 this
          | cons x xs => simp [List.length_cons]
        · intro a ha
          rcases List.mem_cons.mp ha with h2 | h2
          · exact h2 ▸ hc
          · exact List.mem_takeWhile_imp h2
    · rw [if_neg hc] at h
      cases h

theorem matchNameQ_shape (l : Str) (cap rest : Str)
    (h : matchNameQ l = some (cap, rest)) : GoodName cap := by
  rw [matchNameQ] at h
  by_cases hq : l.head? = some '"'
  · rw [if_pos hq] at h
    exact nameSeq_shape _ _ _ h
  · rw [if_neg hq] at h
    exact nameSeq_shape _ _ _ h

theorem matchCalled_shape (l1 : Str) (cap rest : Str)
    (h : matchCalled l1 = some (cap, rest)) : GoodName cap := by
  rw [matchCalled] at h
  by_cases hcal : ciStarts "called".data l1
  · rw [if_pos hcal] at h
    by_cases hws2 : ((l1.drop 6).takeWhile isWsChar).isEmpty
    · rw [if_pos hws2] at h
      cases h
    · rw [if_neg hws2] at h
      exact matchNameQ_shape _ _ _ h
  · rw [if_neg hcal] at h
    cases h

theorem matchAfterKw_shape (l : Str) (cap rest : Str)
    (h : matchAfterKw l = some (cap, rest)) : GoodName cap := by
  rw [matchAfterKw] at h
  by_cases hws : (l.takeWhile isWsChar).isEmpty
  · rw [if_pos hws] at h
    cases h
  · rw [if_neg hws] at h
    match h2 : matchCalled (l.drop (l.takeWhile isWsChar).length) with
    | some r =>
      rw [h2] at h
      cases h
      exact matchCalled_shape _ _ _ h2
    | none =>
      rw [h2] at h
      exact matchNameQ_shape _ _ _ h

theorem tryKeywords_shape (kws : List Str) (l : Str) (cap rest : Str)
    (h : tryKeywords kws l = some (cap, rest)) : GoodName cap := by
  induction kws with
  | nil => simp [tryKeywords] at h
  | cons kw kws ih =>
    rw [tryKeywords] at h
    by_cases hci : ciStarts kw l
    · rw [if_pos hci] at h
      match h2 : matchAfterKw (l.drop kw.length) with
      | some r =>
        rw [h2] at h
        cases h
        exact matchAfterKw_shape _ _ _ h2
      | none =>
        rw [h2] at h
        exact ih h
    · rw [if_neg hci] at h
      exact ih h

/-- Claim C6 (amended): every candidate captured by the keyword-adjacency
pass is a whitespace-separated sequence of alphabetic words, each consisting
of a letter followed by one or more letters — of arbitrary case, because the
pattern is compiled with the `i` flag, which makes `[A-Z][a-z]+` match
any-case words; the candidates need not be capitalized. -/
theorem keywordPass_letter_words (fuel : Nat) :
    ∀ (l : Str) (i : Nat) (cap : Str) (j : Nat),
      (cap, j) ∈ kwScanAux fuel l i → GoodName cap := by
  induction fuel with
  | zero => intro l i cap j h; simp [kwScanAux] at h
  | succ fuel ih =>
    intro l i cap j h
    match l with
    | [] => simp [kwScanAux] at h
    | c :: cs =>
      rw [kwScanAux] at h
      match h2 : tryKeywords restaurantKeywords (c :: cs) with
      | some r =>
        rw [h2] at h
        rcases List.mem_cons.mp h with h3 | h3
        · have hc : cap = r.1 := by
            have := congrArg Prod.fst h3
            simpa using this
          exact hc ▸ tryKeywords_shape _ _ _ _ (by rw [h2])
        · exact ih _ _ _ _ h3
      | none =>
        rw [h2] at h
        exact ih _ _ _ _ h

/-- Claim C6 counterexample: on the text `restaurant foo` the
keyword-adjacency pass captures the all-lowercase candidate `foo` (the `i`
flag defeats the intended capitalization), and the extractor returns it as a
mention; its first character is not an uppercase letter, so the candidate is
not a capitalized-word sequence. -/
theorem keywordPass_lowercase_cex :
    keywordCandidates "restaurant foo".data = [("foo".data, 0)]
  ∧ (extractRestaurantMentions "restaurant foo".data SourceKind.comment "c1".data).map
      (·.name) = ["foo".data]
  ∧ ("foo".data.head? = some 'f' ∧ isUpperChar 'f' = false) := by
  refine ⟨by decide, by decide, by decide, by decide⟩

theorem keywordPass_letter_words_witness :
    (("foo".data, 0) ∈ kwScanAux 15 "restaurant foo".data 0) ∧ GoodName "foo".data :=
  ⟨by decide, keywordPass_letter_words 15 "restaurant foo".data 0 "foo".data 0 (by decide)⟩

/-! ## The shared deduplication map (claims C8, C9) -/

theorem mlookup_cons (p : Str × Mention) (ps : MMap) (k : Str) :
    mlookup (p :: ps) k = if p.1 = k then some p.2 else mlookup ps k := rfl

theorem mbump_cons (p : Str × Mention) (m : MMap) (k : Str) :
    mbump (p :: m) k
      = (if p.1 = k then (p.1, { p.2 with mentions := p.2.mentions + 1 }) else p)
          :: mbump m k := rfl

theorem mlookup_append (m : MMap) (p : Str × Mention) (k : Str) :
    mlookup (m ++ [p]) k =
      match mlookup m k with
      | some e => some e
      | none => if p.1 = k then some p.2 else none := by
  induction m with
  | nil => rfl
  | cons q m ih =>
    rw [List.cons_append, mlookup_cons, mlookup_cons]
    by_cases h : q.1 = k
    · simp [h]
    · simp only [if_neg h, ih]

theorem mlookup_mbump_same (m : MMap) (k : Str) (e : Mention)
    (h : mlookup m k = some e) :
    mlookup (mbump m k) k = some { e with mentions := e.mentions + 1 } := by
  induction m with
  | nil => simp [mlookup] at h
  | cons q m ih =>
    rw [mlookup_cons] at h
    by_cases hq : q.1 = k
    · rw [if_pos hq] at h
      cases h
      simp [mbump_cons, mlookup_cons, hq]
    · rw [if_neg hq] at h
      rw [mbump_cons, if_neg hq, mlookup_cons, if_neg hq]
      exact ih h

theorem mlookup_mbump_other (m : MMap) (k k2 : Str) (h : k2 ≠ k) :
    mlookup (mbump m k) k2 = mlookup m k2 := by
  induction m with
  | nil => simp [mbump, mlookup]
  | cons q m ih =>
    rw [mbump_cons, mlookup_cons, mlookup_cons]
    by_cases hq : q.1 = k
    · have hne : ¬q.1 = k2 := fun hqk => h (by rw [← hqk]; exact hq)
      rw [if_pos hq]
      simp only [hne, if_false, ih]
    · rw [if_neg hq]
      simp only [ih]

theorem mlookup_mem_values (m : MMap) (k : Str) (e : Mention)
    (h : mlookup m k = some e) : e ∈ m.map (·.2) := by
  induction m with
  | nil => simp [mlookup] at h
  | cons q m ih =>
    rw [mlookup_cons] at h
    by_cases hq : q.1 = k
    · rw [if_pos hq] at h
      cases h
      rw [List.map_cons]
      exact List.mem_cons_self _ _
    · rw [if_neg hq] at h
      simp only [List.map_cons, List.mem_cons]
      exact Or.inr (ih h)

theorem countKey_cons (k : Str) (c : Str × Nat) (cs : List (Str × Nat)) :
    countKey k (c :: cs) = (if candKey c = some k then 1 else 0) + countKey k cs := by
  rw [countKey, countKey]
  by_cases h : candKey c = some k
  · rw [List.filter_cons_of_pos (by simp [h])]
    simp [h]
    omega
  · rw [List.filter_cons_of_neg (by simp [h])]
    simp [h]

theorem mention_eta (e : Mention) : { e with mentions := e.mentions + 0 } = e := by
  cases e
  rfl

theorem addCandidate_existing (st : SourceKind) (sid text : Str) (m : MMap)
    (cand : Str × Nat) (k : Str) (e : Mention) (h : mlookup m k = some e) :
    mlookup (addCandidate st sid text m cand) k
      = some { e with mentions := e.mentions + (if candKey cand = some k then 1 else 0) } := by
  rw [addCandidate, candKey]
  by_cases hg : 2 < (jsTrim cand.1).length ∧ (jsTrim cand.1).length < 100
  · rw [if_pos hg, if_pos hg]
    by_cases hk : lowerStr (jsTrim cand.1) = k
    · rw [hk]
      rw [h]
      simp only [if_pos rfl]
      exact mlookup_mbump_same m k e h
    · have hks : ¬(some (lowerStr (jsTrim cand.1)) = some k) := by
        intro hc
        exact hk (Option.some.injEq _ _ ▸ hc)
      rw [if_neg hks]
      match h2 : mlookup m (lowerStr (jsTrim cand.1)) with
      | some e2 =>
        rw [mlookup_mbump_other m _ k (fun hc => hk hc.symm), h]
        rw [mention_eta]
      | none =>
        rw [mlookup_append, h]
        rw [mention_eta]
  · rw [if_neg hg, if_neg hg]
    simp only [reduceCtorEq, if_false]
    rw [h, mention_eta]

theorem pass12_fold (st : SourceKind) (sid text k : Str) :
    ∀ (cands : List (Str × Nat)) (m : MMap) (e : Mention), mlookup m k = some e →
      mlookup (cands.foldl (addCandidate st sid text) m) k
        = some { e with mentions := e.mentions + countKey k cands } := by
  intro cands
  induction cands with
  | nil =>
    intro m e h
    simp only [List.foldl_nil, countKey, List.filter_nil, List.length_nil]
    rw [h, mention_eta]
  | cons c cs ih =>
    intro m e h
    rw [List.foldl_cons]
    have hstep := addCandidate_existing st sid text m c k e h
    have := ih (addCandidate st sid text m c) _ hstep
    rw [this, countKey_cons]
    by_cases hc : candKey c = some k
    · simp only [hc, if_true]
      refine congrArg _ ?_
      refine congrArg _ ?_
      omega
    · simp only [hc, if_false]
      refine congrArg _ ?_
      refine congrArg _ ?_
      omega

theorem addCapName_existing (st : SourceKind) (sid text : Str) (m : MMap)
    (name : Str) (k : Str) (e : Mention) (h : mlookup m k = some e) :
    mlookup (addCapName st sid text m name) k = some e := by
  rw [addCapName]
  by_cases hg : 3 < name.length ∧ name.length < 100
      ∧ ¬restaurantKeywords.contains (lowerStr name)
  · rw [if_pos hg]
    match h2 : mlookup m (lowerStr name) with
    | some e2 => exact h
    | none =>
      have hk : ¬(lowerStr name = k) := by
        intro hc
        rw [hc, h] at h2
        cases h2
      rw [mlookup_append, h]
  · rw [if_neg hg]
    exact h

theorem pass3_fold (st : SourceKind) (sid text k : Str) :
    ∀ (names : List Str) (m : MMap) (e : Mention), mlookup m k = some e →
      mlookup (names.foldl (addCapName st sid text) m) k = some e := by
  intro names
  induction names with
  | nil => intro m e h; exact h
  | cons n ns ih =>
    intro m e h
    rw [List.foldl_cons]
    exact ih _ _ (addCapName_existing st sid text m n k e h)

/-- Claim C8 (amended): all three passes share one deduplication map keyed by
the lower-cased candidate name, and the first pass to insert a key wins the
stored name and snippet; passes 1-2 bump an existing entry's occurrence
count (once per further candidate with that key) without changing any other
field; but the bare-capitalization pass (pass 3) leaves an existing entry
completely unchanged — it neither overwrites nor increments it (the source
has no else branch there). -/
theorem extract_dedup_discipline (st : SourceKind) (sid text k : Str) :
    (∀ (cands : List (Str × Nat)) (m : MMap) (e : Mention), mlookup m k = some e →
      mlookup (cands.foldl (addCandidate st sid text) m) k
        = some { e with mentions := e.mentions + countKey k cands })
  ∧ (∀ (names : List Str) (m : MMap) (e : Mention), mlookup m k = some e →
      mlookup (names.foldl (addCapName st sid text) m) k = some e) :=
  ⟨pass12_fold st sid text k, pass3_fold st sid text k⟩

/-- Claim C8 counterexample: with text `eat "Pasta" Pasta`, pass 1 inserts
`Pasta` with count 1; pass 3 runs (the text contains `eat`) and encounters
`Pasta` twice with the key already present, yet the final count is still 1 —
pass 3 discarded the occurrences instead of bumping the count. -/
theorem capPass_no_bump_cex :
    (extractRestaurantMentions "eat \"Pasta\" Pasta".data SourceKind.comment "c1".data).map
        (fun mn => (mn.name, mn.mentions)) = [("Pasta".data, 1)]
  ∧ capitalizedCandidates "eat \"Pasta\" Pasta".data = ["Pasta".data, "Pasta".data]
  ∧ hasFoodContext "eat \"Pasta\" Pasta".data = true := by
  refine ⟨by decide, by decide, by decide⟩

theorem extract_dedup_discipline_witness :
    mlookup [("pasta".data,
        (⟨"Pasta".data, SourceKind.comment, "c".data, [], 1⟩ : Mention))] "pasta".data
      = some ⟨"Pasta".data, SourceKind.comment, "c".data, [], 1⟩
  ∧ mlookup ([("Pasta".data, 0)].foldl
        (addCandidate SourceKind.comment "c".data "Pasta".data)
        [("pasta".data, ⟨"Pasta".data, SourceKind.comment, "c".data, [], 1⟩)]) "pasta".data
      = some ⟨"Pasta".data, SourceKind.comment, "c".data, [],
              1 + countKey "pasta".data [("Pasta".data, 0)]⟩ :=
  ⟨rfl,
   (extract_dedup_discipline SourceKind.comment "c".data "Pasta".data "pasta".data).1
     [("Pasta".data, 0)]
     [("pasta".data, ⟨"Pasta".data, SourceKind.comment, "c".data, [], 1⟩)]
     ⟨"Pasta".data, SourceKind.comment, "c".data, [], 1⟩ rfl⟩

/-! ## Name length bounds (claim C9) -/

theorem addCandidate_bound (st : SourceKind) (sid text : Str) (m : MMap)
    (cand : Str × Nat)
    (h : ∀ p ∈ m, 3 ≤ p.2.name.length ∧ p.2.name.length ≤ 99) :
    ∀ p ∈ addCandidate st sid text m cand, 3 ≤ p.2.name.length ∧ p.2.name.length ≤ 99 := by
  rw [addCandidate]
  by_cases hg : 2 < (jsTrim cand.1).length ∧ (jsTrim cand.1).length < 100
  · rw [if_pos hg]
    match h2 : mlookup m (lowerStr (jsTrim cand.1)) with
    | none =>
      intro p hp
      rcases List.mem_append.mp hp with hin | hin
      · exact h p hin
      · rw [List.mem_singleton] at hin
        subst hin
        refine ⟨?_, ?_⟩
        · show 3 ≤ (jsTrim cand.1).length
          omega
        · show (jsTrim cand.1).length ≤ 99
          omega
    | some e =>
      intro p hp
      rcases List.mem_map.mp hp with ⟨q, hq, rfl⟩
      by_cases hqk : q.1 = lowerStr (jsTrim cand.1)
      · simp only [hqk, if_true]
        exact h q hq
      · simp only [hqk, if_false]
        exact h q hq
  · rw [if_neg hg]
    exact h

theorem addCapName_bound (st : SourceKind) (sid text : Str) (m : MMap) (name : Str)
    (h : ∀ p ∈ m, 3 ≤ p.2.name.length ∧ p.2.name.length ≤ 99) :
    ∀ p ∈ addCapName st sid text m name, 3 ≤ p.2.name.length ∧ p.2.name.length ≤ 99 := by
  rw [addCapName]
  by_cases hg : 3 < name.length ∧ name.length < 100
      ∧ ¬restaurantKeywords.contains (lowerStr name)
  · rw [if_pos hg]
    match h2 : mlookup m (lowerStr name) with
    | none =>
      intro p hp
      rcases List.mem_append.mp hp with hin | hin
      · exact h p hin
      · rw [List.mem_singleton] at hin
        subst hin
        refine ⟨?_, ?_⟩
        · show 3 ≤ name.length
          omega
        · show name.length ≤ 99
          omega
    | some e => exact h
  · rw [if_neg hg]
    exact h

theorem fold12_bound (st : SourceKind) (sid text : Str) :
    ∀ (cands : List (Str × Nat)) (m : MMap),
      (∀ p ∈ m, 3 ≤ p.2.name.length ∧ p.2.name.length ≤ 99) →
      ∀ p ∈ cands.foldl (addCandidate st sid text) m,
        3 ≤ p.2.name.length ∧ p.2.name.length ≤ 99 := by
  intro cands
  induction cands with
  | nil => intro m h; exact h
  | cons c cs ih =>
    intro m h
    rw [List.foldl_cons]
    exact ih _ (addCandidate_bound st sid text m c h)

theorem fold3_bound (st : SourceKind) (sid text : Str) :
    ∀ (names : List Str) (m : MMap),
      (∀ p ∈ m, 3 ≤ p.2.name.length ∧ p.2.name.length ≤ 99) →
      ∀ p ∈ names.foldl (addCapName st sid text) m,
        3 ≤ p.2.name.length ∧ p.2.name.length ≤ 99 := by
  intro names
  induction names with
  | nil => intro m h; exact h
  | cons n ns ih =>
    intro m h
    rw [List.foldl_cons]
    exact ih _ (addCapName_bound st sid text m n h)

/-- Claim C9: for every text, source kind and document id, every mention
returned by `extractRestaurantMentions` has a name of length at least 3 and
at most 99 — names of length ≤ 2 or ≥ 100 are never returned (passes 1-2
gate on (2, 100) exclusive after trimming, pass 3 on (3, 100) exclusive). -/
theorem extract_name_length_bounds (text : Str) (st : SourceKind) (sid : Str) :
    ∀ mn ∈ extractRestaurantMentions text st sid,
      3 ≤ mn.name.length ∧ mn.name.length ≤ 99 := by
  rw [extractRestaurantMentions]
  by_cases hemp : text.isEmpty
  · rw [if_pos hemp]
    intro mn hmn
    cases hmn
  · rw [if_neg hemp]
    have h1 : ∀ p ∈ (quotedCandidates text).foldl (addCandidate st sid text) [],
        3 ≤ p.2.name.length ∧ p.2.name.length ≤ 99 :=
      fold12_bound st sid text _ [] (by intro p hp; cases hp)
    have h2 : ∀ p ∈ (keywordCandidates text).foldl (addCandidate st sid text)
        ((quotedCandidates text).foldl (addCandidate st sid text) []),
        3 ≤ p.2.name.length ∧ p.2.name.length ≤ 99 :=
      fold12_bound st sid text _ _ h1
    by_cases hfc : hasFoodContext text
    · rw [if_pos hfc]
      intro mn hmn
      have h3 := fold3_bound st sid text (capitalizedCandidates text) _ h2
      rcases List.mem_map.mp hmn with ⟨p, hp, rfl⟩
      exact h3 p hp
    · rw [if_neg hfc]
      intro mn hmn
      rcases List.mem_map.mp hmn with ⟨p, hp, rfl⟩
      exact h2 p hp

theorem extract_name_length_bounds_witness :
    ((⟨"foo".data, SourceKind.comment, "c1".data, "restaurant foo".data, 1⟩ : Mention)
        ∈ extractRestaurantMentions "restaurant foo".data SourceKind.comment "c1".data)
  ∧ 3 ≤ "foo".data.length ∧ "foo".data.length ≤ 99 :=
  ⟨by decide,
   extract_name_length_bounds "restaurant foo".data SourceKind.comment "c1".data
     ⟨"foo".data, SourceKind.comment, "c1".data, "restaurant foo".data, 1⟩ (by decide)⟩

/-! ## Quoted-name pass completeness (claim C7) -/

theorem splitOnFirst_clean (q : Char) :
    ∀ (b a : Str), (∀ c ∈ b, ¬c = q) →
      splitOnFirst q (b ++ q :: a) = some (b, a) := by
  intro b
  induction b with
  | nil =>
    intro a _
    rw [List.nil_append, splitOnFirst, if_pos rfl]
  | cons c b ih =>
    intro a h
    rw [List.cons_append, splitOnFirst, if_neg (h c (by simp))]
    rw [ih a (fun x hx => h x (by simp [hx]))]
    rfl

theorem qScan_skip :
    ∀ (p : Str), (∀ c ∈ p, ¬c = '"' ∧ ¬c = '\'') →
      ∀ (r : Str) (i fuel : Nat),
        qScanAux (p.length + fuel) (p ++ r) i = qScanAux fuel r (i + p.length) := by
  intro p
  induction p with
  | nil => intro _ r i fuel; simp
  | cons c p ih =>
    intro h r i fuel
    rw [show (c :: p).length + fuel = (p.length + fuel) + 1 by
      simp only [List.length_cons]; omega]
    rw [List.cons_append, qScanAux]
    rw [if_neg (h c (by simp)).1, if_neg (h c (by simp)).2]
    rw [ih (fun x hx => h x (by simp [hx])) r (i + 1) fuel]
    rw [show i + 1 + p.length = i + (c :: p).length by simp only [List.length_cons]; omega]

theorem qScan_match_double (mid s : Str) (i fuel : Nat)
    (hne : mid ≠ []) (hmid : ∀ c ∈ mid, ¬c = '"') :
    qScanAux (fuel + 1) ('"' :: (mid ++ '"' :: s)) i
      = (mid, i) :: qScanAux fuel s (i + mid.length + 2) := by
  rw [qScanAux, if_pos rfl, splitOnFirst_clean '"' mid s hmid]
  simp only []
  rw [if_neg (by simpa [List.isEmpty_iff] using hne)]

theorem qScan_match_single (mid s : Str) (i fuel : Nat)
    (hne : mid ≠ []) (hmid : ∀ c ∈ mid, ¬c = '\'') :
    qScanAux (fuel + 1) ('\'' :: (mid ++ '\'' :: s)) i
      = (mid, i) :: qScanAux fuel s (i + mid.length + 2) := by
  rw [qScanAux, if_neg (by decide), if_pos rfl, splitOnFirst_clean '\'' mid s hmid]
  simp only []
  rw [if_neg (by simpa [List.isEmpty_iff] using hne)]

theorem qScan_empty :
    ∀ (s : Str), (∀ c ∈ s, ¬c = '"' ∧ ¬c = '\'') →
      ∀ (fuel i : Nat), qScanAux fuel s i = [] := by
  intro s
  induction s with
  | nil => intro _ fuel i; cases fuel <;> rfl
  | cons c cs ih =>
    intro h fuel i
    cases fuel with
    | zero => rfl
    | succ fuel =>
      rw [qScanAux, if_neg (h c (by simp)).1, if_neg (h c (by simp)).2]
      exact ih (fun x hx => h x (by simp [hx])) fuel (i + 1)

theorem quotedCandidates_clean (p mid s : Str) (q : Char)
    (hq : q = '"' ∨ q = '\'')
    (hp : ∀ c ∈ p, ¬c = '"' ∧ ¬c = '\'') (hs : ∀ c ∈ s, ¬c = '"' ∧ ¬c = '\'')
    (hne : mid ≠ []) (hmid : ∀ c ∈ mid, ¬c = '"' ∧ ¬c = '\'') :
    quotedCandidates (p ++ q :: (mid ++ q :: s)) = [(mid, p.length)] := by
  rw [quotedCandidates]
  rw [show (p ++ q :: (mid ++ q :: s)).length + 1
      = p.length + ((mid.length + s.length + 2) + 1) by
    simp only [List.length_append, List.length_cons]; omega]
  rw [qScan_skip p hp (q :: (mid ++ q :: s)) 0 ((mid.length + s.length + 2) + 1)]
  rcases hq with hq | hq
  · subst hq
    rw [qScan_match_double mid s (0 + p.length) (mid.length + s.length + 2) hne
      (fun c hc => (hmid c hc).1)]
    rw [qScan_empty s hs]
    simp
  · subst hq
    rw [qScan_match_single mid s (0 + p.length) (mid.length + s.length + 2) hne
      (fun c hc => (hmid c hc).2)]
    rw [qScan_empty s hs]
    simp

theorem addCandidate_insert_absent (st : SourceKind) (sid text : Str) (m : MMap)
    (cand : Str × Nat)
    (hg : 2 < (jsTrim cand.1).length ∧ (jsTrim cand.1).length < 100)
    (habs : mlookup m (lowerStr (jsTrim cand.1)) = none) :
    mlookup (addCandidate st sid text m cand) (lowerStr (jsTrim cand.1))
      = some ⟨jsTrim cand.1, st, sid, snippetAt text cand.2, 1⟩ := by
  rw [addCandidate, if_pos hg]
  match h2 : mlookup m (lowerStr (jsTrim cand.1)) with
  | some e =>
    rw [habs] at h2
    cases h2
  | none => rw [mlookup_append, habs, if_pos rfl]

/-- Claim C7 counterexample: the text `see " x "The Pasta House"` contains
the quoted substring `"The Pasta House"`, yet the extractor returns no
mention at all: quote pairing is parity-sensitive, so the stray `"` earlier
in the prose pairs with the intended opening quote (capturing ` x `, which
the length gate discards) and leaves the name's own quotes unpaired. -/
theorem quotedName_pairing_cex :
    containsSeq "see \" x \"The Pasta House\"".data "\"The Pasta House\"".data = true
  ∧ (extractRestaurantMentions "see \" x \"The Pasta House\"".data SourceKind.comment
      "c1".data).map (·.name) = [] := by
  refine ⟨by decide, by decide⟩

/-- Claim C7 (amended): for every text in which `The Pasta House` is wrapped
in single or double quotes and the surrounding prose contains no further
quote characters of either kind, the extractor returns a mention named
exactly `The Pasta House`. -/
theorem quotedName_clean_context (p s : Str) (st : SourceKind) (sid : Str) (q : Char)
    (hq : q = '"' ∨ q = '\'')
    (hp : ∀ c ∈ p, ¬c = '"' ∧ ¬c = '\'') (hs : ∀ c ∈ s, ¬c = '"' ∧ ¬c = '\'') :
    ∃ mn ∈ extractRestaurantMentions (p ++ q :: ("The Pasta House".data ++ q :: s)) st sid,
      mn.name = "The Pasta House".data := by
  have hqc := quotedCandidates_clean p "The Pasta House".data s q hq hp hs (by decide)
    (by decide)
  have hne : ¬(p ++ q :: ("The Pasta House".data ++ q :: s)).isEmpty = true := by
    simp [List.isEmpty_iff]
  have h1 : mlookup ((quotedCandidates (p ++ q :: ("The Pasta House".data ++ q :: s))).foldl
        (addCandidate st sid (p ++ q :: ("The Pasta House".data ++ q :: s))) [])
        (lowerStr (jsTrim "The Pasta House".data))
      = some ⟨jsTrim "The Pasta House".data, st, sid,
              snippetAt (p ++ q :: ("The Pasta House".data ++ q :: s)) p.length, 1⟩ := by
    rw [hqc, List.foldl_cons, List.foldl_nil]
    exact addCandidate_insert_absent st sid _ [] ("The Pasta House".data, p.length)
      ((⟨by decide, by decide⟩ :
        2 < (jsTrim "The Pasta House".data).length
          ∧ (jsTrim "The Pasta House".data).length < 100)) rfl
  have h2 := pass12_fold st sid (p ++ q :: ("The Pasta House".data ++ q :: s))
    (lowerStr (jsTrim "The Pasta House".data))
    (keywordCandidates (p ++ q :: ("The Pasta House".data ++ q :: s))) _ _ h1
  by_cases hfc : hasFoodContext (p ++ q :: ("The Pasta House".data ++ q :: s))
  · rw [extractRestaurantMentions, if_neg hne, if_pos hfc]
    have h3 := pass3_fold st sid (p ++ q :: ("The Pasta House".data ++ q :: s))
      (lowerStr (jsTrim "The Pasta House".data))
      (capitalizedCandidates (p ++ q :: ("The Pasta House".data ++ q :: s))) _ _ h2
    refine ⟨_, mlookup_mem_values _ _ _ h3, ?_⟩
    show jsTrim "The Pasta House".data = "The Pasta House".data
    decide
  · rw [extractRestaurantMentions, if_neg hne, if_neg hfc]
    refine ⟨_, mlookup_mem_values _ _ _ h2, ?_⟩
    show jsTrim "The Pasta House".data = "The Pasta House".data
    decide

theorem quotedName_clean_context_witness :
    ∃ mn ∈ extractRestaurantMentions
        ("I love ".data ++ '"' :: ("The Pasta House".data ++ '"' :: " a lot".data))
        SourceKind.comment "c1".data,
      mn.name = "The Pasta House".data :=
  quotedName_clean_context "I love ".data " a lot".data SourceKind.comment "c1".data '"'
    (Or.inl rfl) (by decide) (by decide)
